import Mathlib

/-!
Verification development for the swarm op parser and connection state machine
(src/swarm-syncable/src/Op.js: the Op entity with its regex-based parser, and
the OpStream duplex wrapper defined in the same source tree).

Strings are modelled as lists of characters.  The parsing regexes of Op.js
(Op.rsSpec, Op.rsOp, Op.rsPatchOp) are string-assembled from fragments of the
external Spec module; their deterministic greedy semantics is embedded below as
maximal-munch scanners.  Recursions that consume a shrinking suffix are written
with an explicit fuel argument (always instantiated with the input length plus
one, which is provably sufficient) so that every definition reduces inside the
kernel.
-/

/-- Strings as character lists. -/
abbrev Str := List Char

/-- Modelled from the spec: the token character class of the external Spec
module (Spec.rT, not under src).  An address token is a run of alphanumerics,
underscores and tildes, as in the documents of the spec (for example
`0+u~ssn`, `Model`, `obj1`). -/
def isTokChar (c : Char) : Bool := c.isAlphanum || c == '_' || c == '~'

/-- Modelled from the spec: the quantifier class of the external Spec module
(Spec.rsQuant, not under src).  The four component sigils of an address are
slash, hash, bang and dot, for type, id, version and operation name. -/
def isQuantChar (c : Char) : Bool := c == '/' || c == '#' || c == '!' || c == '.'

/-- Horizontal whitespace, the character class written as a space plus tab
class in Op.rsOp. -/
def isHWS (c : Char) : Bool := c == ' ' || c == '\t'

/-- Any character except a newline: the semantics of an unflagged dot in the
value group of Op.rsOp. -/
def notNL (c : Char) : Bool := !(c == '\n')

/-- Greedy nonempty munch of characters satisfying p, as a plus-quantified
character class matches: the maximal run, failing when it is empty. -/
def munch1 (p : Char → Bool) (s : Str) : Option (Str × Str) :=
  let t := s.takeWhile p
  if t.isEmpty then none else some (t, s.dropWhile p)

/-- The optional extension group of Op.rsSpec: a plus sign and a nonempty
token, or nothing.  Returns the matched text (possibly empty) and the rest. -/
def munchExt (s : Str) : Str × Str :=
  match s with
  | '+' :: r2 =>
    (match munch1 isTokChar r2 with
     | some (e, r3) => ('+' :: e, r3)
     | none => ([], s))
  | _ => ([], s)

/-- One quantified token of Op.rsSpec: a quantifier character, a nonempty
token, and optionally a plus sign followed by another nonempty token.  Returns
the matched text and the rest.  Greedy, like the regex. -/
def munchQTok (s : Str) : Option (Str × Str) :=
  match s with
  | [] => none
  | c :: rest =>
    if isQuantChar c then
      match munch1 isTokChar rest with
      | none => none
      | some (t, r1) =>
        let er := munchExt r1
        some (c :: (t ++ er.1), er.2)
    else none

/-- Fuelled iteration of munchQTok: the star around the quantified token group
of Op.rsSpec.  Returns the list of matched quantified tokens and the rest. -/
def munchQToksF : Nat → Str → (List Str × Str)
  | 0, s => ([], s)
  | n + 1, s =>
    match munchQTok s with
    | none => ([], s)
    | some (q, r) =>
      let p := munchQToksF n r
      (q :: p.1, p.2)

/-- Iteration of munchQTok with sufficient fuel. -/
def munchQToks (s : Str) : List Str × Str := munchQToksF (s.length + 1) s

/-- The spec group of Op.rsOp: one or more quantified tokens (Op.rsSpec).
Returns the quantified tokens of the match and the rest. -/
def munchSpec (s : Str) : Option (List Str × Str) :=
  let p := munchQToks s
  if p.1.isEmpty then none else some p

/-- One patch continuation line of Op.rsPatchOp: a newline, indentation, a
spec, separating whitespace and a value running to the end of the line.
Returns the captured spec tokens and value, and the rest. -/
def munchPatchRep (s : Str) : Option ((List Str × Str) × Str) :=
  match s with
  | [] => none
  | c :: r =>
    if c = '\n' then
      match munch1 isHWS r with
      | none => none
      | some (_, r1) =>
        match munchSpec r1 with
        | none => none
        | some (qs, r2) =>
          match munch1 isHWS r2 with
          | none => none
          | some (_, r3) => some ((qs, r3.takeWhile notNL), r3.dropWhile notNL)
    else none

/-- Fuelled star over patch continuation lines, as in the trailing group of
Op.rsOp.  Collects the captures of each full repetition; a partial repetition
consumes nothing and stops the group. -/
def munchPatchOpsF : Nat → Str → (List (List Str × Str) × Str)
  | 0, s => ([], s)
  | n + 1, s =>
    match munchPatchRep s with
    | none => ([], s)
    | some (pv, r) =>
      let p := munchPatchOpsF n r
      (pv :: p.1, p.2)

/-- Star over patch continuation lines with sufficient fuel. -/
def munchPatchOps (s : Str) : List (List Str × Str) × Str :=
  munchPatchOpsF (s.length + 1) s

/-- The capture groups of one match of Op.reOp: the spec group (as its
quantified tokens; the raw captured text is their concatenation), the value
group, and the captures of the patch continuation lines.  In Op.parse the raw
patch text is re-scanned with Op.rePatchOp; since that text is by construction
exactly the concatenation of the matched continuation lines, the re-scan
recovers exactly these captures, so they are collected directly here. -/
structure RawMatch where
  specToks : List Str
  value : Str
  patch : List (List Str × Str)
deriving Repr

/-- One attempt of Op.reOp at the start of the input: spec, mandatory
horizontal whitespace, value to the end of the line, then greedily any number
of patch continuation lines.  Deterministic: the character classes of the spec
group, the whitespace and the value are pairwise disjoint at every boundary,
so regex backtracking can never turn a failure into a match. -/
def matchOpAt (s : Str) : Option (RawMatch × Str) :=
  match munchSpec s with
  | none => none
  | some (qs, r1) =>
    match munch1 isHWS r1 with
    | none => none
    | some (_, r2) =>
      let v := r2.takeWhile notNL
      let r3 := r2.dropWhile notNL
      let pr := munchPatchOps r3
      some (⟨qs, v, pr.1⟩, pr.2)

/-- Leftmost match search, the semantics of RegExp.exec: try every start
position from the left until the pattern matches. -/
def findMatch : Str → Option (RawMatch × Str)
  | [] => none
  | c :: t =>
    match matchOpAt (c :: t) with
    | some m => some m
    | none => findMatch t

/-- Fuelled exec loop of Op.parse: repeatedly take the leftmost match and
continue after it.  The returned remainder is the suffix after the end of the
last match (all of the input when there is no match), exactly as
str.substr(d) with d the end offset of the last match. -/
def parseLoopF : Nat → Str → (List RawMatch × Str)
  | 0, s => ([], s)
  | n + 1, s =>
    match findMatch s with
    | none => ([], s)
    | some (m, rest) =>
      let p := parseLoopF n rest
      (m :: p.1, p.2)

/-- The exec loop of Op.parse with sufficient fuel. -/
def parseLoop (s : Str) : List RawMatch × Str := parseLoopF (s.length + 1) s

/-- Modelled from the spec: the address value of the external Spec module (not
under src).  An address has four optional components, type, id, version and
operation name; each component is stored as its token text, including the
optional plus extension (so the version of `!1+u.set` is the text `1+u`). -/
structure Spec where
  typ : Option Str
  id : Option Str
  ver : Option Str
  opn : Option Str
deriving Repr, DecidableEq

/-- The empty address, the starting point of address parsing. -/
def emptySpec : Spec := ⟨none, none, none, none⟩

/-- Modelled from the spec: assignment of one parsed quantified token to its
address component, keyed by the leading sigil. -/
def assignQTok (sp : Spec) (q : Str) : Spec :=
  match q with
  | [] => sp
  | c :: rest =>
    if c = '/' then { sp with typ := some rest }
    else if c = '#' then { sp with id := some rest }
    else if c = '!' then { sp with ver := some rest }
    else if c = '.' then { sp with opn := some rest }
    else sp

/-- Modelled from the spec: parsing an address from its quantified tokens. -/
def specBase (qs : List Str) : Spec := qs.foldl assignQTok emptySpec

/-- Modelled from the spec: abbreviation resolution; components missing from
an address are taken from a fallback address. -/
def Spec.fillFrom (sp fallback : Spec) : Spec :=
  ⟨match sp.typ with | some t => some t | none => fallback.typ,
   match sp.id with | some t => some t | none => fallback.id,
   match sp.ver with | some t => some t | none => fallback.ver,
   match sp.opn with | some t => some t | none => fallback.opn⟩

/-- Modelled from the spec: the Spec constructor on parsed tokens, with an
optional default address (used for patch entries, which share the parent type
identifier) and an optional abbreviation context. -/
def specOf (qs : List Str) (dflt : Option Spec) (ctx : Option Spec) : Spec :=
  let b := specBase qs
  let b1 := match dflt with | some d => b.fillFrom d | none => b
  match ctx with | some c => b1.fillFrom c | none => b1

/-- Modelled from the spec: typeId of an address, the type and id components
alone. -/
def typeIdOf (sp : Spec) : Spec := ⟨sp.typ, sp.id, none, none⟩

/-- The quantified tokens of an address in canonical render order, each with
its sigil. -/
def Spec.qtoks (sp : Spec) : List Str :=
  (match sp.typ with | some t => [('/' : Char) :: t] | none => []) ++
  (match sp.id with | some t => [('#' : Char) :: t] | none => []) ++
  (match sp.ver with | some t => [('!' : Char) :: t] | none => []) ++
  (match sp.opn with | some t => [('.' : Char) :: t] | none => [])

/-- Concatenation of a list of strings, as Array.prototype.join with the
empty separator. -/
def strcat (l : List Str) : Str := l.foldr (fun a b => a ++ b) []

/-- Modelled from the spec: full text rendering of an address (Spec
toString), the sigil-prefixed components in canonical order. -/
def Spec.render (sp : Spec) : Str := strcat sp.qtoks

/-- Modelled from the spec: the pattern of an address, one sigil per present
component, in canonical order. -/
def Spec.pattern (sp : Spec) : Str :=
  (match sp.typ with | some _ => [('/' : Char)] | none => []) ++
  (match sp.id with | some _ => [('#' : Char)] | none => []) ++
  (match sp.ver with | some _ => [('!' : Char)] | none => []) ++
  (match sp.opn with | some _ => [('.' : Char)] | none => [])

/-- Modelled from the spec: the type accessor, the text of the type
component. -/
def Spec.typeStr (sp : Spec) : Str := sp.typ.getD []

/-- Modelled from the spec: the id accessor, the text of the id component. -/
def Spec.idStr (sp : Spec) : Str := sp.id.getD []

/-- Modelled from the spec: the stamp accessor, the full text of the version
component (logical time, plus sign, origin). -/
def Spec.stampStr (sp : Spec) : Str := sp.ver.getD []

/-- Modelled from the spec: the operation name accessor, the text of the
operation component. -/
def Spec.opStr (sp : Spec) : Str := sp.opn.getD []

/-- Modelled from the spec: the origin of a version token, the part after the
plus sign (empty when there is none). -/
def originOf (v : Str) : Str := (v.dropWhile (fun c => !(c == '+'))).drop 1

/-- Modelled from the spec: the author of an address, the origin of its
version up to the session separator tilde. -/
def Spec.author (sp : Spec) : Str :=
  (originOf sp.stampStr).takeWhile (fun c => !(c == '~'))

/-- Modelled from the spec: the abbreviated stamp-and-operation rendering of
an address (Spec stampop), used for patch continuation lines. -/
def Spec.stampop (sp : Spec) : Str :=
  (match sp.ver with | some t => ('!' : Char) :: t | none => []) ++
  (match sp.opn with | some t => ('.' : Char) :: t | none => [])

/-- The immutable op of Op.js: an address, a value, a provenance tag and an
optional patch of nested ops.  A missing patch (null) is distinguished from a
present empty array, as in the source. -/
inductive Op where
  | mk (spec : Spec) (value : Str) (source : Str) (patch : Option (List Op)) : Op
deriving Repr

/-- Address of an op. -/
def Op.spec : Op → Spec
  | .mk s _ _ _ => s

/-- Value of an op, the empty string when the payload is absent. -/
def Op.value : Op → Str
  | .mk _ v _ _ => v

/-- Provenance tag of an op. -/
def Op.source : Op → Str
  | .mk _ _ s _ => s

/-- Patch of an op: null or a list of nested ops. -/
def Op.patch : Op → Option (List Op)
  | .mk _ _ _ p => p

/-- The result of Op.parse: the decoded ops and the unconsumed remainder. -/
structure ParseRes where
  ops : List Op
  remainder : Str
deriving Repr

/-- Construction of one op from the capture groups of one Op.reOp match, as
in the loop body of Op.parse: the spec is parsed with the caller context, each
patch capture becomes a nested op whose spec is resolved against the parent
typeId, and a missing patch group leaves the patch null. -/
def opOfMatch (source : Str) (ctx : Option Spec) (m : RawMatch) : Op :=
  let sp := specOf m.specToks none ctx
  let patch :=
    match m.patch with
    | [] => none
    | ps => some (ps.map (fun pv => Op.mk (specOf pv.1 (some (typeIdOf sp)) none) pv.2 source none))
  Op.mk sp m.value source patch

/-- Op.parse of Op.js: run the exec loop, drop a leading run of newlines from
the remainder (blank-line skip), fail with the unparseable-input error when
the remainder still holds a newline and no further match exists in it, fail
with the oversize error when the remainder exceeds two to the twenty-third
characters, and otherwise return the ops with the remainder. -/
def Op.parse (s : Str) (source : Str) (ctx : Option Spec) : Except Str ParseRes :=
  let p := parseLoop s
  let rem1 := p.2.dropWhile (fun c => c == '\n')
  if rem1.contains '\n' && (findMatch rem1).isNone then
    .error ("unparseable input").toList
  else if 2 ^ 23 < rem1.length then
    .error ("large unparseable input").toList
  else
    .ok ⟨p.1.map (opOfMatch source ctx), rem1⟩

/-- Abbreviated rendering of an op (Op.prototype.toShortString): stampop of
the address, a tab, the value. -/
def Op.toShortString (o : Op) : Str := o.spec.stampop ++ ('\t' : Char) :: o.value

/-- Serialization of an op (Op.prototype.toString, no context): full address,
a tab, the value, with no trailing newline; when the operation name is
exactly `on` and the patch is present, one continuation line per patch entry,
each a newline, a tab and the short rendering of the entry. -/
def Op.toString (o : Op) : Str :=
  let line := o.spec.render ++ ('\t' : Char) :: o.value
  match o.patch with
  | some ps =>
    if o.spec.opStr = ("on").toList then
      line ++ strcat (ps.map (fun p => ('\n' : Char) :: ('\t' : Char) :: p.toShortString))
    else line
  | none => line

/-!
The OpStream connection state machine.  The transport is modelled by an open
flag (stream present or null) and the list of texts written to it; consumer
signals (per-op delivery via push, the id, end and error events) are recorded
in the state.  Timers are modelled by the flush-timeout flag (the stored
setTimeout handle, which the source never clears) together with a count of
callbacks actually scheduled; wall-clock time, the keep-alive timer and the
JSON decoding of handshake options (the raw option text is stored instead)
are outside the model.
-/

/-- Connection state of OpStream. -/
structure St where
  streamOpen : Bool
  asyncFlush : Bool
  restrictAuthor : Option Str
  ssn_id : Option Str
  db_id : Option Str
  stamp : Str
  peer_ssn_id : Option Str
  peer_db_id : Option Str
  peer_stamp : Option Str
  peer_options : Option Str
  remainder : Str
  pending : List Op
  flushTimeoutSet : Bool
  armedFlushes : Nat
  written : List Str
  delivered : List Op
  errorSignals : List Str
  idSignals : List Op
  endSignals : Nat
deriving Repr

/-- OpStream.prototype.flush: a closed stream is a silent no-op (the pending
queue is kept); otherwise the pending ops are serialized, joined with the
empty separator and written to the transport in one write, and the queue is
emptied.  The stored flush-timeout handle is not cleared. -/
def flushStep (st : St) : St :=
  if st.streamOpen then
    { st with written := st.written ++ [strcat (st.pending.map Op.toString)], pending := [] }
  else st

/-- OpStream.prototype._write, reached by write, send and deliver: append the
op to the pending queue; with asyncFlush arm a zero-delay deferred flush only
when the stored timeout handle is unset (the handle is then set and one
callback is scheduled); without asyncFlush flush synchronously. -/
def writeStep (op : Op) (st : St) : St :=
  let st1 := { st with pending := st.pending ++ [op] }
  if st1.asyncFlush then
    if st1.flushTimeoutSet then st1
    else { st1 with flushTimeoutSet := true, armedFlushes := st1.armedFlushes + 1 }
  else flushStep st1

/-- The firing of a scheduled deferred flush: the callback count drops and
flush runs; the stored timeout handle stays set, as in the source. -/
def fireFlush (st : St) : St :=
  flushStep { st with armedFlushes := st.armedFlushes - 1 }

/-- A send viewed through its exception behavior: write, send and deliver
never throw. -/
def writeE (op : Op) (st : St) : Except Str St := .ok (writeStep op st)

/-- OpStream.prototype.end: throws when the stream is already gone; otherwise
optionally writes one final op, ends the transport and drops the stream. -/
def endStep (something : Option Op) (st : St) : Except Str St :=
  if st.streamOpen then
    let st1 := match something with | some op => writeStep op st | none => st
    .ok { st1 with streamOpen := false }
  else .error ("this op stream is not open").toList

/-- OpStream.prototype.onStreamError: when the stream is still present, emit
one error signal and close via end; already closed, a no-op. -/
def onStreamError (msg : Str) (st : St) : St :=
  if st.streamOpen then
    { st with errorSignals := st.errorSignals ++ [msg], streamOpen := false }
  else st

/-- OpStream.prototype.onStreamEnded: drop the stream and emit the end
signal. -/
def onStreamEnded (st : St) : St :=
  { st with streamOpen := false, endSignals := st.endSignals + 1 }

/-- Whether the first string occurs at the very start of the second. -/
def leadsWith : Str → Str → Bool
  | [], _ => true
  | _ :: _, [] => false
  | a :: as, b :: bs => a == b && leadsWith as bs

/-- Whether the first string occurs anywhere inside the second: the test of
an unanchored regex made of plain characters. -/
def containsSeq (needle : Str) : Str → Bool
  | [] => needle.isEmpty
  | c :: t => leadsWith needle (c :: t) || containsSeq needle t

/-- The handshake shape test shared by sendHandshake and onHandshake: the
address pattern is exactly the four components, the type matches the
unanchored regex over Swarm with an optional profile (so any type containing
the text Swarm passes), and the operation name lowercases to on. -/
def handshakeShapeOk (sp : Spec) : Bool :=
  sp.pattern == ("/#!.").toList &&
  containsSeq (("Swarm").toList) sp.typeStr &&
  sp.opStr.map Char.toLower == ("on").toList

/-- OpStream.prototype.sendHandshake: reject a non-handshake shape with an
error; on success record the local database id, session id and stamp from the
op, then write it. -/
def sendHandshakeE (op : Op) (st : St) : Except Str St :=
  if handshakeShapeOk op.spec then
    .ok (writeStep op { st with db_id := some op.spec.idStr,
                                ssn_id := some (originOf op.spec.stampStr),
                                stamp := op.spec.stampStr })
  else .error ("not a handshake").toList

/-- OpStream.prototype.onHandshake: an invalid shape is routed to the error
path (which closes the connection) and the function returns; a valid one
records the peer identity fields, keeps the raw option text (empty value
means none) and emits the id signal. -/
def onHandshakeStep (op : Op) (st : St) : St :=
  if handshakeShapeOk op.spec then
    { st with peer_db_id := some op.spec.idStr,
              peer_ssn_id := some (originOf op.spec.stampStr),
              peer_options := if op.value.isEmpty then none else some op.value,
              peer_stamp := some op.spec.stampStr,
              idSignals := st.idSignals ++ [op] }
  else onStreamError (("invalid handshake").toList) st

/-- The effective author restriction: options.restrictAuthor read through the
or-undefined coercion, so an empty string behaves as no restriction. -/
def effRestrict (st : St) : Option Str :=
  match st.restrictAuthor with
  | some s => if s.isEmpty then none else some s
  | none => none

/-- The delivery loop of onStreamDataReceived: each op is checked against the
author restriction; a mismatch is routed to the error path with the access
violation message and stops the loop; otherwise the op is pushed to the
consumer.  The push is unconditional on the stream, as in the source. -/
def deliverOps (ops : List Op) (st : St) : St :=
  match ops with
  | [] => st
  | op :: rest =>
    match effRestrict st with
    | some a =>
      if op.spec.author = a then
        deliverOps rest { st with delivered := st.delivered ++ [op] }
      else
        onStreamError (("access violation: ").toList ++ op.spec.render) st
    | none => deliverOps rest { st with delivered := st.delivered ++ [op] }

/-- The source tag given to the parser: the peer stamp, coerced to the empty
string while it is null. -/
def sourceOf (st : St) : Str := st.peer_stamp.getD []

/-- The handshake gate condition: the peer stamp is still falsy (null or the
empty string). -/
def expectHandshake (st : St) : Bool :=
  match st.peer_stamp with
  | none => true
  | some s => s.isEmpty

/-- OpStream.prototype.onStreamDataReceived: ignore data on a dropped stream
and empty keep-alive chunks; otherwise append the chunk to the buffered
remainder and parse the whole buffer.  A parser failure is routed to the
error path with the bad-format message and the remainder is left unchanged.
On success the remainder is replaced; an empty batch returns.  While the peer
stamp is falsy the first op of the batch is removed and processed as the
handshake — and the loop then delivers the remaining ops even when the
handshake step failed and closed the connection, as in the source. -/
def onStreamDataReceived (data : Str) (st : St) : St :=
  if st.streamOpen then
    if data.isEmpty then st
    else
      match Op.parse (st.remainder ++ data) (sourceOf st) none with
      | .error _ => onStreamError (("bad op format").toList) st
      | .ok res =>
        let st1 := { st with remainder := res.remainder }
        match res.ops with
        | [] => st1
        | op1 :: rest =>
          if expectHandshake st1 then deliverOps rest (onHandshakeStep op1 st1)
          else deliverOps (op1 :: rest) st1
  else st

/-!
Well-formedness of address texts, used to state the positive theorems: a
valid token, a valid component (token with optional plus extension), and a
well-formed address (every present component valid, at least one present).
-/

/-- A valid address token: nonempty, all token characters. -/
def validTok (s : Str) : Bool := !s.isEmpty && s.all isTokChar

/-- A valid component text: a valid token, optionally extended by a plus sign
and a second valid token. -/
def validComp (s : Str) : Bool :=
  let t := s.takeWhile isTokChar
  let r := s.dropWhile isTokChar
  validTok t &&
    (r.isEmpty || (match r with | '+' :: e => validTok e | _ => false))

/-- A valid quantified token: a quantifier sigil followed by a valid
component. -/
def validQTok (q : Str) : Bool :=
  match q with
  | [] => false
  | c :: comp => isQuantChar c && validComp comp

/-- Validity of an optional component. -/
def validCompO : Option Str → Bool
  | none => true
  | some s => validComp s

/-- A well-formed address: every present component valid and at least one
component present. -/
def specWF (sp : Spec) : Bool :=
  validCompO sp.typ && validCompO sp.id && validCompO sp.ver &&
  validCompO sp.opn && !sp.pattern.isEmpty

/-- A boundary after which a maximal token run cannot continue. -/
def tokBoundary (r : Str) : Prop :=
  r = [] ∨ ∃ c rs, r = c :: rs ∧ isTokChar c = false

/-- A boundary after which a quantified token cannot continue: the next
character extends neither the token nor the extension. -/
def qtokBoundary (r : Str) : Prop :=
  r = [] ∨ ∃ c rs, r = c :: rs ∧ isTokChar c = false ∧ c ≠ '+'

/-- A boundary after which a spec cannot continue: the next character starts
no further quantified token and extends no token. -/
def specBoundary (r : Str) : Prop :=
  r = [] ∨ ∃ c rs, r = c :: rs ∧ isTokChar c = false ∧ c ≠ '+' ∧
    isQuantChar c = false

/-!
Exactly-so munching: a well-formed text followed by a suitable boundary is
consumed exactly, which pins down every capture group of a match.
-/

theorem takeWhile_append_all (p : Char → Bool) (t r : Str)
    (ht : ∀ c ∈ t, p c = true)
    (hr : r = [] ∨ ∃ c rs, r = c :: rs ∧ p c = false) :
    (t ++ r).takeWhile p = t ∧ (t ++ r).dropWhile p = r := by
  induction t with
  | nil =>
    simp only [List.nil_append]
    rcases hr with rfl | ⟨c, rs, rfl, hc⟩
    · exact ⟨rfl, rfl⟩
    · simp [List.takeWhile_cons, List.dropWhile_cons, hc]
  | cons a t ih =>
    have ha : p a = true := ht a (by simp)
    have ih2 := ih (fun c hc => ht c (by simp [hc]))
    simp [List.takeWhile_cons, List.dropWhile_cons, ha, ih2.1, ih2.2]

theorem munch1_exact (p : Char → Bool) (t r : Str) (ht0 : t ≠ [])
    (ht : ∀ c ∈ t, p c = true)
    (hr : r = [] ∨ ∃ c rs, r = c :: rs ∧ p c = false) :
    munch1 p (t ++ r) = some (t, r) := by
  obtain ⟨h1, h2⟩ := takeWhile_append_all p t r ht hr
  simp [munch1, h1, h2, ht0]

theorem munch1_eq_some (p : Char → Bool) (s t r : Str)
    (h : munch1 p s = some (t, r)) :
    t ++ r = s ∧ t ≠ [] ∧ r.length < s.length := by
  by_cases he : (s.takeWhile p).isEmpty
  · simp [munch1, he] at h
  · simp only [munch1, he, if_neg, Bool.false_eq_true, not_false_iff,
      if_false, Option.some.injEq, Prod.mk.injEq] at h
    obtain ⟨rfl, rfl⟩ := h
    refine ⟨List.takeWhile_append_dropWhile p s, ?_, ?_⟩
    · simpa [List.isEmpty_iff] using he
    · have hlen : (s.takeWhile p).length + (s.dropWhile p).length = s.length := by
        have hc := congrArg List.length (List.takeWhile_append_dropWhile p s)
        rw [List.length_append] at hc
        exact hc
      have hpos : 0 < (s.takeWhile p).length := by
        cases hq : s.takeWhile p with
        | nil => simp [hq] at he
        | cons a l => simp [hq]
      omega

theorem validTok_elim (s : Str) (h : validTok s = true) :
    s ≠ [] ∧ ∀ c ∈ s, isTokChar c = true := by
  cases s with
  | nil => simp [validTok] at h
  | cons a l =>
    unfold validTok at h
    simp only [Bool.and_eq_true, List.all_eq_true] at h
    exact ⟨by simp, h.2⟩

theorem validComp_elim (s : Str) (h : validComp s = true) :
    (s ≠ [] ∧ ∀ c ∈ s, isTokChar c = true) ∨
    (∃ t e, s = t ++ '+' :: e ∧ t ≠ [] ∧ (∀ c ∈ t, isTokChar c = true) ∧
      e ≠ [] ∧ ∀ c ∈ e, isTokChar c = true) := by
  unfold validComp at h
  simp only [Bool.and_eq_true, Bool.or_eq_true] at h
  obtain ⟨hvt, hrest⟩ := h
  obtain ⟨ht0, htall⟩ := validTok_elim _ hvt
  have hs : s.takeWhile isTokChar ++ s.dropWhile isTokChar = s :=
    List.takeWhile_append_dropWhile isTokChar s
  rcases hrest with hre | hm
  · left
    have hr : s.dropWhile isTokChar = [] := by
      cases hd : s.dropWhile isTokChar with
      | nil => rfl
      | cons c rs => rw [hd] at hre; simp at hre
    rw [hr, List.append_nil] at hs
    constructor
    · intro h0
      exact ht0 (hs.trans h0)
    · intro c hc
      exact htall c (by rw [hs]; exact hc)
  · right
    cases hd : s.dropWhile isTokChar with
    | nil => rw [hd] at hm; simp at hm
    | cons c rs =>
      rw [hd] at hm
      split at hm
      case h_1 e heq =>
        injection heq with h2 h3
        subst h2
        subst h3
        obtain ⟨he0, heall⟩ := validTok_elim _ hm
        refine ⟨s.takeWhile isTokChar, rs, ?_, ht0, htall, he0, heall⟩
        rw [← hd]
        exact hs.symm
      case h_2 => simp at hm

theorem munchExt_boundary (s : Str)
    (h : s = [] ∨ ∃ c rs, s = c :: rs ∧ c ≠ '+') :
    munchExt s = ([], s) := by
  rcases h with rfl | ⟨c, rs, rfl, hc⟩
  · rfl
  · unfold munchExt
    split
    case h_1 r2 heq => injection heq with h1 _; exact absurd h1 hc
    case h_2 => rfl

theorem munchExt_exact (e rest : Str) (he0 : e ≠ [])
    (heall : ∀ c ∈ e, isTokChar c = true)
    (hb : rest = [] ∨ ∃ c rs, rest = c :: rs ∧ isTokChar c = false) :
    munchExt ('+' :: (e ++ rest)) = ('+' :: e, rest) := by
  have h1 : munch1 isTokChar (e ++ rest) = some (e, rest) :=
    munch1_exact isTokChar e rest he0 heall hb
  unfold munchExt
  split
  case h_1 r2 heq =>
    injection heq with h2 h3
    subst h3
    rw [h1]
  case h_2 hne => exact absurd rfl (hne (e ++ rest))

theorem munchExt_le (s : Str) : (munchExt s).2.length ≤ s.length := by
  unfold munchExt
  split
  case h_1 r2 =>
    cases hm : munch1 isTokChar r2 with
    | none => simp
    | some er =>
      obtain ⟨e, r3⟩ := er
      have := (munch1_eq_some isTokChar r2 e r3 hm).2.2
      simp only [hm]
      simp
      omega
  case h_2 => simp

theorem munchQTok_exact (c : Char) (comp rest : Str)
    (hq : isQuantChar c = true) (hc : validComp comp = true)
    (hb : qtokBoundary rest) :
    munchQTok ((c :: comp) ++ rest) = some (c :: comp, rest) := by
  have hbtok : rest = [] ∨ ∃ d rs, rest = d :: rs ∧ isTokChar d = false := by
    rcases hb with rfl | ⟨d, rs, rfl, hd1, _⟩
    · exact Or.inl rfl
    · exact Or.inr ⟨d, rs, rfl, hd1⟩
  have hbext : rest = [] ∨ ∃ d rs, rest = d :: rs ∧ d ≠ '+' := by
    rcases hb with rfl | ⟨d, rs, rfl, _, hd2⟩
    · exact Or.inl rfl
    · exact Or.inr ⟨d, rs, rfl, hd2⟩
  rcases validComp_elim comp hc with ⟨h0, hall⟩ | ⟨t, e, rfl, ht0, htall, he0, heall⟩
  · have hm1 : munch1 isTokChar (comp ++ rest) = some (comp, rest) :=
      munch1_exact isTokChar comp rest h0 hall hbtok
    simp only [munchQTok, List.cons_append, hq, if_true, hm1,
      munchExt_boundary rest hbext, List.append_nil]
  · have hassoc : (t ++ '+' :: e) ++ rest = t ++ ('+' :: (e ++ rest)) := by simp
    have hm1 : munch1 isTokChar ((t ++ '+' :: e) ++ rest) =
        some (t, '+' :: (e ++ rest)) := by
      rw [hassoc]
      exact munch1_exact isTokChar t ('+' :: (e ++ rest)) ht0 htall
        (Or.inr ⟨'+', e ++ rest, rfl, by decide⟩)
    simp only [munchQTok, List.cons_append, hq, if_true, hm1,
      munchExt_exact e rest he0 heall hbtok]

theorem munchQTok_lt {s q r : Str} (h : munchQTok s = some (q, r)) :
    r.length < s.length := by
  cases s with
  | nil => simp [munchQTok] at h
  | cons c rest =>
    simp only [munchQTok] at h
    by_cases hq : isQuantChar c
    · rw [if_pos hq] at h
      cases hm : munch1 isTokChar rest with
      | none => rw [hm] at h; simp at h
      | some tr =>
        obtain ⟨t, r1⟩ := tr
        rw [hm] at h
        have h1 := (munch1_eq_some isTokChar rest t r1 hm).2.2
        have h2 := munchExt_le r1
        simp only [Option.some.injEq, Prod.mk.injEq] at h
        obtain ⟨_, rfl⟩ := h
        simp only [List.length_cons]
        omega
    · rw [if_neg hq] at h; simp at h


theorem quantChar_props (c : Char) (h : isQuantChar c = true) :
    isTokChar c = false ∧ c ≠ '+' ∧ isHWS c = false ∧ ¬(c = '\n') := by
  simp only [isQuantChar, Bool.or_eq_true, beq_iff_eq] at h
  rcases h with ((rfl | rfl) | rfl) | rfl <;>
    exact ⟨by decide, by decide, by decide, by decide⟩

theorem strcat_cons (q : Str) (qs : List Str) : strcat (q :: qs) = q ++ strcat qs := rfl

theorem munchQToksF_le : ∀ (n : Nat) (s : Str), (munchQToksF n s).2.length ≤ s.length := by
  intro n
  induction n with
  | zero => intro s; simp [munchQToksF]
  | succ n ih =>
    intro s
    simp only [munchQToksF]
    cases hm : munchQTok s with
    | none => simp
    | some qr =>
      obtain ⟨q, r⟩ := qr
      have h1 := munchQTok_lt hm
      have h2 := ih r
      simp only []
      omega

theorem munchQToksF_exact : ∀ (n : Nat) (qs : List Str) (rest : Str),
    (strcat qs ++ rest).length < n →
    (∀ q ∈ qs, validQTok q = true) → specBoundary rest →
    munchQToksF n (strcat qs ++ rest) = (qs, rest) := by
  intro n
  induction n with
  | zero => intro qs rest h; omega
  | succ n ih =>
    intro qs rest hlen hqs hb
    cases qs with
    | nil =>
      have hnone : munchQTok rest = none := by
        rcases hb with rfl | ⟨c, rs, rfl, _, _, hcq⟩
        · rfl
        · simp [munchQTok, hcq]
      simp only [strcat, List.foldr, List.nil_append, munchQToksF, hnone]
    | cons q qs2 =>
      have hq := hqs q (by simp)
      cases q with
      | nil => simp [validQTok] at hq
      | cons c comp =>
        simp only [validQTok, Bool.and_eq_true] at hq
        have hb2 : qtokBoundary (strcat qs2 ++ rest) := by
          cases qs2 with
          | nil =>
            simp only [strcat, List.foldr, List.nil_append]
            rcases hb with rfl | ⟨d, rs, rfl, hd1, hd2, _⟩
            · exact Or.inl rfl
            · exact Or.inr ⟨d, rs, rfl, hd1, hd2⟩
          | cons q2 qs3 =>
            have hq2 := hqs q2 (by simp)
            cases q2 with
            | nil => simp [validQTok] at hq2
            | cons d comp2 =>
              simp only [validQTok, Bool.and_eq_true] at hq2
              obtain ⟨hd1, hd2, _, _⟩ := quantChar_props d hq2.1
              refine Or.inr ⟨d, comp2 ++ (strcat qs3 ++ rest), ?_, hd1, hd2⟩
              simp [strcat_cons]
        have hsplit : strcat ((c :: comp) :: qs2) ++ rest =
            (c :: comp) ++ (strcat qs2 ++ rest) := by
          simp [strcat_cons]
        rw [hsplit]
        have hqt := munchQTok_exact c comp (strcat qs2 ++ rest) hq.1 hq.2 hb2
        simp only [munchQToksF, hqt]
        have hlen2 : (strcat qs2 ++ rest).length < n := by
          rw [hsplit] at hlen
          simp only [List.length_append, List.length_cons] at hlen ⊢
          omega
        rw [ih qs2 rest hlen2 (fun q hm => hqs q (by simp [hm])) hb]

theorem munchQToks_exact (qs : List Str) (rest : Str)
    (hqs : ∀ q ∈ qs, validQTok q = true) (hb : specBoundary rest) :
    munchQToks (strcat qs ++ rest) = (qs, rest) :=
  munchQToksF_exact _ qs rest (by omega) hqs hb

theorem munchSpec_exact (qs : List Str) (rest : Str) (h0 : qs ≠ [])
    (hqs : ∀ q ∈ qs, validQTok q = true) (hb : specBoundary rest) :
    munchSpec (strcat qs ++ rest) = some (qs, rest) := by
  unfold munchSpec
  rw [munchQToks_exact qs rest hqs hb]
  cases qs with
  | nil => exact absurd rfl h0
  | cons q qs2 => rfl

theorem munchQToks_lt (s : Str) (h : (munchQToks s).1 ≠ []) :
    (munchQToks s).2.length < s.length := by
  unfold munchQToks at h ⊢
  simp only [munchQToksF] at h ⊢
  cases hm : munchQTok s with
  | none => simp only [hm] at h; simp at h
  | some qr =>
    obtain ⟨q1, r1⟩ := qr
    simp only [hm] at h ⊢
    have h1 := munchQTok_lt hm
    have h2 := munchQToksF_le s.length r1
    omega

theorem munchSpec_lt {s : Str} {qs : List Str} {r : Str}
    (h : munchSpec s = some (qs, r)) : r.length < s.length := by
  unfold munchSpec at h
  by_cases he : (munchQToks s).1.isEmpty
  · simp [he] at h
  · simp only [he, Bool.false_eq_true, if_false] at h
    have hne : (munchQToks s).1 ≠ [] := by
      cases hq : (munchQToks s).1 with
      | nil => rw [hq] at he; simp at he
      | cons a l => simp
    have := munchQToks_lt s hne
    have h2 : munchQToks s = (qs, r) := Option.some.inj h
    have hr : (munchQToks s).2.length = r.length := by rw [h2]
    omega

theorem munchSpec_none_head (c : Char) (s : Str) (h : isQuantChar c = false) :
    munchSpec (c :: s) = none := by
  unfold munchSpec munchQToks
  simp only [munchQToksF, munchQTok, h]
  simp

theorem munchPatchRep_le {s r : Str} {pv : List Str × Str}
    (h : munchPatchRep s = some (pv, r)) : r.length ≤ s.length := by
  cases s with
  | nil => simp [munchPatchRep] at h
  | cons c t =>
    simp only [munchPatchRep] at h
    by_cases hc : c = '\n'
    case neg => rw [if_neg hc] at h; simp at h
    case pos =>
      rw [if_pos hc] at h
      cases hm1 : munch1 isHWS t with
      | none => simp only [hm1] at h; simp at h
      | some wr =>
        obtain ⟨w, r1⟩ := wr
        simp only [hm1] at h
        cases hm2 : munchSpec r1 with
        | none => simp only [hm2] at h; simp at h
        | some qr =>
          obtain ⟨qs, r2⟩ := qr
          simp only [hm2] at h
          cases hm3 : munch1 isHWS r2 with
          | none => simp only [hm3] at h; simp at h
          | some wr2 =>
            obtain ⟨w2, r3⟩ := wr2
            simp only [hm3, Option.some.injEq, Prod.mk.injEq] at h
            have e1 := (munch1_eq_some _ _ _ _ hm1).2.2
            have e2 := munchSpec_lt hm2
            have e3 := (munch1_eq_some _ _ _ _ hm3).2.2
            have e4 : r.length ≤ r3.length := by
              rw [← h.2]
              exact (List.dropWhile_sublist notNL).length_le
            simp only [List.length_cons]
            omega

theorem munchPatchOpsF_le : ∀ (n : Nat) (s : Str),
    (munchPatchOpsF n s).2.length ≤ s.length := by
  intro n
  induction n with
  | zero => intro s; simp [munchPatchOpsF]
  | succ n ih =>
    intro s
    simp only [munchPatchOpsF]
    cases hm : munchPatchRep s with
    | none => simp
    | some pr =>
      obtain ⟨pv, r⟩ := pr
      have h1 := munchPatchRep_le hm
      have h2 := ih r
      simp only []
      omega

theorem matchOpAt_lt {s : Str} {m : RawMatch} {r : Str}
    (h : matchOpAt s = some (m, r)) : r.length < s.length := by
  unfold matchOpAt at h
  cases hm1 : munchSpec s with
  | none => simp only [hm1] at h; simp at h
  | some qr =>
    obtain ⟨qs, r1⟩ := qr
    simp only [hm1] at h
    cases hm2 : munch1 isHWS r1 with
    | none => simp only [hm2] at h; simp at h
    | some wr =>
      obtain ⟨w, r2⟩ := wr
      simp only [hm2, Option.some.injEq, Prod.mk.injEq] at h
      have e1 := munchSpec_lt hm1
      have e2 := (munch1_eq_some _ _ _ _ hm2).2.2
      have e3 : (r2.dropWhile notNL).length ≤ r2.length :=
        (List.dropWhile_sublist notNL).length_le
      have e4 := munchPatchOpsF_le ((r2.dropWhile notNL).length + 1) (r2.dropWhile notNL)
      have e6 : r.length ≤ (r2.dropWhile notNL).length := by
        rw [← h.2]
        exact e4
      omega

theorem findMatch_lt : ∀ {s : Str} {p : RawMatch × Str},
    findMatch s = some p → p.2.length < s.length := by
  intro s
  induction s with
  | nil => intro p h; simp [findMatch] at h
  | cons c t ih =>
    intro p h
    simp only [findMatch] at h
    cases hm : matchOpAt (c :: t) with
    | some q =>
      rw [hm] at h
      cases h
      exact matchOpAt_lt (by rw [hm])
    | none =>
      rw [hm] at h
      have := ih h
      simp only [List.length_cons]
      omega

theorem parseLoopF_irrel : ∀ (n m : Nat) (s : Str), s.length < n → s.length < m →
    parseLoopF n s = parseLoopF m s := by
  intro n
  induction n with
  | zero => intro m s h; omega
  | succ n ih =>
    intro m s hn hm
    cases m with
    | zero => omega
    | succ m =>
      simp only [parseLoopF]
      cases hf : findMatch s with
      | none => rfl
      | some p =>
        obtain ⟨mt, rest⟩ := p
        have hlt : rest.length < s.length := findMatch_lt hf
        dsimp only
        rw [ih m rest (by omega) (by omega)]

theorem parseLoop_step (s : Str) :
    parseLoop s = match findMatch s with
      | none => ([], s)
      | some (m, rest) =>
        let p := parseLoop rest
        (m :: p.1, p.2) := by
  unfold parseLoop
  conv_lhs => rw [parseLoopF]
  cases hf : findMatch s with
  | none => rfl
  | some p =>
    obtain ⟨mt, rest⟩ := p
    have hlt : rest.length < s.length := findMatch_lt hf
    dsimp only
    rw [parseLoopF_irrel s.length (rest.length + 1) rest (by omega) (by omega)]

theorem matchOpAt_none_head (c : Char) (s : Str) (h : isQuantChar c = false) :
    matchOpAt (c :: s) = none := by
  unfold matchOpAt
  rw [munchSpec_none_head c s h]

theorem findMatch_none_cons {c : Char} {s : Str}
    (h : findMatch (c :: s) = none) : findMatch s = none := by
  simp only [findMatch] at h
  cases hm : matchOpAt (c :: s) with
  | some q => rw [hm] at h; simp at h
  | none => rw [hm] at h; exact h

theorem findMatch_none_dropWhile (p : Char → Bool) {s : Str}
    (h : findMatch s = none) : findMatch (s.dropWhile p) = none := by
  induction s with
  | nil => simpa using h
  | cons c t ih =>
    by_cases hp : p c
    · rw [List.dropWhile_cons_of_pos hp]
      exact ih (findMatch_none_cons h)
    · rw [List.dropWhile_cons_of_neg hp]
      exact h

theorem parseLoop_rem_nomatch : ∀ (n : Nat) (s : Str), s.length ≤ n →
    findMatch (parseLoop s).2 = none := by
  intro n
  induction n with
  | zero =>
    intro s h
    have hs : s = [] := List.length_eq_zero.mp (Nat.le_zero.mp h)
    subst hs
    rfl
  | succ n ih =>
    intro s hlen
    rw [parseLoop_step s]
    cases hf : findMatch s with
    | none => exact hf
    | some p =>
      obtain ⟨m, rest⟩ := p
      have hlt : rest.length < s.length := findMatch_lt hf
      exact ih rest (by omega)

theorem findMatch_none_of_no_quant {s : Str}
    (h : ∀ c ∈ s, isQuantChar c = false) : findMatch s = none := by
  induction s with
  | nil => rfl
  | cons c t ih =>
    simp only [findMatch]
    rw [matchOpAt_none_head c t (h c (by simp))]
    exact ih (fun d hd => h d (by simp [hd]))

theorem hwsChar_props (c : Char) (h : isHWS c = true) :
    isTokChar c = false ∧ isQuantChar c = false ∧ c ≠ '+' ∧ notNL c = true := by
  simp only [isHWS, Bool.or_eq_true, beq_iff_eq] at h
  rcases h with rfl | rfl <;> exact ⟨by decide, by decide, by decide, by decide⟩

theorem munch1_none (p : Char → Bool) (s : Str)
    (h : s = [] ∨ ∃ c cs, s = c :: cs ∧ p c = false) : munch1 p s = none := by
  rcases h with rfl | ⟨c, cs, rfl, hc⟩
  · rfl
  · simp [munch1, List.takeWhile_cons, hc]

theorem munchPatchRep_none (t : Str)
    (ht : t = [] ∨ ∃ u, t = '\n' :: u ∧
      (u = [] ∨ ∃ c cs, u = c :: cs ∧ isHWS c = false)) :
    munchPatchRep t = none := by
  rcases ht with rfl | ⟨u, rfl, hu⟩
  · rfl
  · simp only [munchPatchRep, if_pos]
    rw [munch1_none isHWS u hu]

theorem munchPatchOps_stop (t : Str)
    (ht : t = [] ∨ ∃ u, t = '\n' :: u ∧
      (u = [] ∨ ∃ c cs, u = c :: cs ∧ isHWS c = false)) :
    munchPatchOps t = ([], t) := by
  unfold munchPatchOps
  simp only [munchPatchOpsF, munchPatchRep_none t ht]

/-- A complete top-level op line: a well-formed address, a nonempty run of
horizontal whitespace, and a value with no newline that does not begin with
horizontal whitespace. -/
structure GoodLine where
  sp : Spec
  sep : Str
  v : Str
  hWF : specWF sp = true
  hsep0 : sep ≠ []
  hsep : ∀ c ∈ sep, isHWS c = true
  hvNL : ∀ c ∈ v, notNL c = true
  hvHead : v.takeWhile isHWS = []

/-- The text of one op line, without its terminating newline. -/
def lineRender (l : GoodLine) : Str := strcat l.sp.qtoks ++ l.sep ++ l.v

/-- A document of newline-terminated top-level op lines. -/
def docOf : List GoodLine → Str
  | [] => []
  | l :: ls => lineRender l ++ '\n' :: docOf ls

/-- The raw match that one good line produces. -/
def matchOfLine (l : GoodLine) : RawMatch := ⟨l.sp.qtoks, l.v, []⟩

/-- The op that one good line parses to, for a given source and context. -/
def opOfLine (src : Str) (ctx : Option Spec) (l : GoodLine) : Op :=
  Op.mk (specOf l.sp.qtoks none ctx) l.v src none

theorem docOf_append : ∀ (ls1 ls2 : List GoodLine),
    docOf (ls1 ++ ls2) = docOf ls1 ++ docOf ls2 := by
  intro ls1 ls2
  induction ls1 with
  | nil => rfl
  | cons l ls ih => simp [docOf, ih]

theorem spec_qtoks_valid (sp : Spec) (h : specWF sp = true) :
    ∀ q ∈ sp.qtoks, validQTok q = true := by
  obtain ⟨t1, t2, t3, t4⟩ := sp
  simp only [specWF, Bool.and_eq_true] at h
  obtain ⟨⟨⟨⟨h1, h2⟩, h3⟩, h4⟩, _⟩ := h
  intro q hq
  simp only [Spec.qtoks, List.mem_append] at hq
  rcases hq with ((hq | hq) | hq) | hq
  · cases t1 with
    | none => simp at hq
    | some t =>
      simp only [List.mem_singleton] at hq
      subst hq
      simp only [validCompO] at h1
      simp only [validQTok, Bool.and_eq_true]
      exact ⟨by decide, h1⟩
  · cases t2 with
    | none => simp at hq
    | some t =>
      simp only [List.mem_singleton] at hq
      subst hq
      simp only [validCompO] at h2
      simp only [validQTok, Bool.and_eq_true]
      exact ⟨by decide, h2⟩
  · cases t3 with
    | none => simp at hq
    | some t =>
      simp only [List.mem_singleton] at hq
      subst hq
      simp only [validCompO] at h3
      simp only [validQTok, Bool.and_eq_true]
      exact ⟨by decide, h3⟩
  · cases t4 with
    | none => simp at hq
    | some t =>
      simp only [List.mem_singleton] at hq
      subst hq
      simp only [validCompO] at h4
      simp only [validQTok, Bool.and_eq_true]
      exact ⟨by decide, h4⟩

theorem spec_qtoks_ne (sp : Spec) (h : specWF sp = true) : sp.qtoks ≠ [] := by
  obtain ⟨t1, t2, t3, t4⟩ := sp
  simp only [specWF, Bool.and_eq_true] at h
  have h5 := h.2
  cases t1 <;> cases t2 <;> cases t3 <;> cases t4 <;>
    simp_all [Spec.pattern, Spec.qtoks]

theorem spec_render_head (sp : Spec) (h : specWF sp = true) :
    ∃ c rest, strcat sp.qtoks = c :: rest ∧ isQuantChar c = true := by
  obtain ⟨t1, t2, t3, t4⟩ := sp
  cases t1 with
  | some t =>
    refine ⟨'/', t ++ strcat (Spec.mk none t2 t3 t4).qtoks, ?_, by decide⟩
    simp [Spec.qtoks, strcat, List.foldr]
  | none =>
    cases t2 with
    | some t =>
      refine ⟨'#', t ++ strcat (Spec.mk none none t3 t4).qtoks, ?_, by decide⟩
      simp [Spec.qtoks, strcat, List.foldr]
    | none =>
      cases t3 with
      | some t =>
        refine ⟨'!', t ++ strcat (Spec.mk none none none t4).qtoks, ?_, by decide⟩
        simp [Spec.qtoks, strcat, List.foldr]
      | none =>
        cases t4 with
        | some t =>
          refine ⟨'.', t, ?_, by decide⟩
          simp [Spec.qtoks, strcat, List.foldr]
        | none => simp [specWF, Spec.pattern] at h

/-- The shape of tails that stop the patch group of a match: nothing, or a
newline followed by nothing or by a non-indented character. -/
def patchStop (t : Str) : Prop :=
  t = [] ∨ ∃ u, t = '\n' :: u ∧ (u = [] ∨ ∃ c cs, u = c :: cs ∧ isHWS c = false)

theorem matchOpAt_line (l : GoodLine) (t : Str) (ht : patchStop t) :
    matchOpAt (lineRender l ++ t) = some (matchOfLine l, t) := by
  have hassoc : lineRender l ++ t = strcat l.sp.qtoks ++ (l.sep ++ (l.v ++ t)) := by
    simp [lineRender, List.append_assoc]
  have hsepb : specBoundary (l.sep ++ (l.v ++ t)) := by
    cases hsep : l.sep with
    | nil => exact absurd hsep l.hsep0
    | cons c cs =>
      have hc := l.hsep c (by simp [hsep])
      obtain ⟨p1, p2, p3, _⟩ := hwsChar_props c hc
      exact Or.inr ⟨c, cs ++ (l.v ++ t), by simp [hsep], p1, p3, p2⟩
  have hms : munchSpec (strcat l.sp.qtoks ++ (l.sep ++ (l.v ++ t))) =
      some (l.sp.qtoks, l.sep ++ (l.v ++ t)) :=
    munchSpec_exact l.sp.qtoks (l.sep ++ (l.v ++ t)) (spec_qtoks_ne l.sp l.hWF)
      (spec_qtoks_valid l.sp l.hWF) hsepb
  have hvb : l.v ++ t = [] ∨ ∃ c cs, l.v ++ t = c :: cs ∧ isHWS c = false := by
    cases hv : l.v with
    | nil =>
      rcases ht with rfl | ⟨u, rfl, _⟩
      · exact Or.inl (by simp)
      · exact Or.inr ⟨'\n', u, by simp, by decide⟩
    | cons c cs =>
      have hch : isHWS c = false := by
        by_cases hc : isHWS c
        · have hh := l.hvHead
          rw [hv, List.takeWhile_cons_of_pos hc] at hh
          cases hh
        · simpa using hc
      exact Or.inr ⟨c, cs ++ t, by simp, hch⟩
  have hm1 : munch1 isHWS (l.sep ++ (l.v ++ t)) = some (l.sep, l.v ++ t) :=
    munch1_exact isHWS l.sep (l.v ++ t) l.hsep0 l.hsep hvb
  have hvnl : (l.v ++ t).takeWhile notNL = l.v ∧ (l.v ++ t).dropWhile notNL = t := by
    refine takeWhile_append_all notNL l.v t l.hvNL ?_
    rcases ht with rfl | ⟨u, rfl, _⟩
    · exact Or.inl rfl
    · exact Or.inr ⟨'\n', u, rfl, by decide⟩
  have hpo : munchPatchOps t = ([], t) := munchPatchOps_stop t ht
  rw [hassoc]
  unfold matchOpAt
  rw [hms]
  dsimp only
  rw [hm1]
  dsimp only
  rw [hvnl.1, hvnl.2, hpo]
  rfl

theorem matchOpAt_nil : matchOpAt ([] : Str) = none := rfl

theorem findMatch_line (l : GoodLine) (t : Str) (ht : patchStop t) :
    findMatch (lineRender l ++ t) = some (matchOfLine l, t) := by
  have hm := matchOpAt_line l t ht
  cases hcons : lineRender l ++ t with
  | nil => rw [hcons] at hm; rw [matchOpAt_nil] at hm; cases hm
  | cons c rest =>
    simp only [findMatch]
    rw [← hcons, hm]

theorem docOf_shape (ls : List GoodLine) :
    docOf ls = [] ∨ ∃ c cs, docOf ls = c :: cs ∧ isHWS c = false := by
  cases ls with
  | nil => exact Or.inl rfl
  | cons l ls =>
    obtain ⟨c, rest, hc, hq⟩ := spec_render_head l.sp l.hWF
    refine Or.inr ⟨c, rest ++ l.sep ++ l.v ++ '\n' :: docOf ls, ?_,
      (quantChar_props c hq).2.2.1⟩
    simp [docOf, lineRender, hc]

theorem docOf_patchStop (ls : List GoodLine) : patchStop ('\n' :: docOf ls) :=
  Or.inr ⟨docOf ls, rfl, by
    rcases docOf_shape ls with h | ⟨c, cs, hc, hch⟩
    · exact Or.inl h
    · exact Or.inr ⟨c, cs, hc, hch⟩⟩

theorem parseLoop_nldoc : ∀ ls : List GoodLine,
    parseLoop ('\n' :: docOf ls) = (ls.map matchOfLine, ['\n']) := by
  intro ls
  induction ls with
  | nil =>
    have h0 : docOf [] = [] := rfl
    rw [h0]
    rw [parseLoop_step]
    have h1 : findMatch ['\n'] = none := by
      simp only [findMatch]
      rw [matchOpAt_none_head '\n' [] (by decide)]
    rw [h1]
    rfl
  | cons l ls ih =>
    rw [parseLoop_step]
    have hfm : findMatch ('\n' :: docOf (l :: ls)) =
        some (matchOfLine l, '\n' :: docOf ls) := by
      simp only [findMatch]
      rw [matchOpAt_none_head '\n' (docOf (l :: ls)) (by decide)]
      show findMatch (docOf (l :: ls)) = _
      show findMatch (lineRender l ++ '\n' :: docOf ls) = _
      exact findMatch_line l ('\n' :: docOf ls) (docOf_patchStop ls)
    rw [hfm]
    dsimp only
    rw [ih]
    simp

theorem parseLoop_doc : ∀ ls : List GoodLine,
    parseLoop (docOf ls) =
      (ls.map matchOfLine, if ls.isEmpty then [] else ['\n']) := by
  intro ls
  cases ls with
  | nil => rfl
  | cons l ls =>
    rw [parseLoop_step]
    have hfm : findMatch (docOf (l :: ls)) = some (matchOfLine l, '\n' :: docOf ls) := by
      show findMatch (lineRender l ++ '\n' :: docOf ls) = _
      exact findMatch_line l ('\n' :: docOf ls) (docOf_patchStop ls)
    rw [hfm]
    dsimp only
    rw [parseLoop_nldoc ls]
    simp

theorem specBase_qtoks (sp : Spec) : specBase sp.qtoks = sp := by
  obtain ⟨t1, t2, t3, t4⟩ := sp
  cases t1 <;> cases t2 <;> cases t3 <;> cases t4 <;> rfl

theorem opOfMatch_line (src : Str) (ctx : Option Spec) (l : GoodLine) :
    opOfMatch src ctx (matchOfLine l) = opOfLine src ctx l := rfl

theorem parse_doc (ls : List GoodLine) (src : Str) (ctx : Option Spec) :
    Op.parse (docOf ls) src ctx = .ok ⟨ls.map (opOfLine src ctx), []⟩ := by
  unfold Op.parse
  rw [parseLoop_doc ls]
  cases ls with
  | nil => rfl
  | cons l ls2 =>
    simp only [List.isEmpty_cons, if_false, Bool.false_eq_true]
    have hdrop : (['\n'] : Str).dropWhile (fun c => c == '\n') = [] := by decide
    rw [hdrop]
    simp only [List.contains_nil, Bool.false_and, Bool.false_eq_true, if_false,
      List.length_nil]
    have hsize : ¬(2 ^ 23 < 0) := by omega
    rw [if_neg hsize]
    simp only [List.map_map]
    rfl

theorem parse_single_line (l : GoodLine) (src : Str) (ctx : Option Spec) :
    Op.parse (lineRender l) src ctx = .ok ⟨[opOfLine src ctx l], []⟩ := by
  unfold Op.parse
  have hfm : findMatch (lineRender l) = some (matchOfLine l, []) := by
    have h1 : lineRender l = lineRender l ++ [] := by simp
    rw [h1]
    exact findMatch_line l [] (Or.inl rfl)
  rw [parseLoop_step, hfm]
  dsimp only
  have h2 : parseLoop ([] : Str) = ([], []) := rfl
  rw [h2]
  rfl

attribute [ext] St

theorem deliverOps_clean : ∀ (ops : List Op) (st : St) (a : Str),
    effRestrict st = some a → (∀ o ∈ ops, o.spec.author = a) →
    deliverOps ops st = { st with delivered := st.delivered ++ ops } := by
  intro ops
  induction ops with
  | nil =>
    intro st a hr hall
    ext <;> simp [deliverOps]
  | cons op rest ih =>
    intro st a hr hall
    simp only [deliverOps, hr]
    rw [if_pos (hall op (by simp))]
    rw [ih { st with delivered := st.delivered ++ [op] } a hr
      (fun o ho => hall o (by simp [ho]))]
    ext <;> simp

theorem deliverOps_none : ∀ (ops : List Op) (st : St),
    effRestrict st = none →
    deliverOps ops st = { st with delivered := st.delivered ++ ops } := by
  intro ops
  induction ops with
  | nil =>
    intro st hr
    ext <;> simp [deliverOps]
  | cons op rest ih =>
    intro st hr
    simp only [deliverOps, hr]
    rw [ih { st with delivered := st.delivered ++ [op] } hr]
    ext <;> simp

theorem deliverOps_bad : ∀ (pre : List Op) (bad : Op) (post : List Op) (st : St) (a : Str),
    effRestrict st = some a → st.streamOpen = true →
    (∀ o ∈ pre, o.spec.author = a) → ¬(bad.spec.author = a) →
    deliverOps (pre ++ bad :: post) st =
      { st with delivered := st.delivered ++ pre,
                errorSignals := st.errorSignals ++
                  [("access violation: ").toList ++ bad.spec.render],
                streamOpen := false } := by
  intro pre
  induction pre with
  | nil =>
    intro bad post st a hr hopen hpre hbad
    simp only [List.nil_append, deliverOps, hr]
    rw [if_neg hbad]
    unfold onStreamError
    rw [if_pos hopen]
    ext <;> simp
  | cons op pre2 ih =>
    intro bad post st a hr hopen hpre hbad
    simp only [List.cons_append, deliverOps, hr]
    rw [if_pos (hpre op (by simp))]
    simp only [List.append_eq]
    rw [ih bad post { st with delivered := st.delivered ++ [op] } a hr hopen
      (fun o ho => hpre o (by simp [ho])) hbad]
    ext <;> simp

theorem foldl_write_flagged : ∀ (ops : List Op) (st : St),
    st.asyncFlush = true → st.flushTimeoutSet = true →
    ops.foldl (fun s op => writeStep op s) st = { st with pending := st.pending ++ ops } := by
  intro ops
  induction ops with
  | nil =>
    intro st ha hf
    ext <;> simp
  | cons op rest ih =>
    intro st ha hf
    simp only [List.foldl_cons]
    have hw : writeStep op st = { st with pending := st.pending ++ [op] } := by
      unfold writeStep
      rw [if_pos ha, if_pos hf]
    rw [hw]
    rw [ih { st with pending := st.pending ++ [op] } ha hf]
    ext <;> simp

theorem parseLoop_no_quant (s : Str) (h : ∀ c ∈ s, isQuantChar c = false) :
    parseLoop s = ([], s) := by
  rw [parseLoop_step, findMatch_none_of_no_quant h]

theorem replicate_a_no_quant (n : Nat) :
    ∀ c ∈ List.replicate n 'a', isQuantChar c = false := by
  intro c hc
  have hce := List.eq_of_mem_replicate hc
  subst hce
  decide

theorem replicate_a_no_nl (n : Nat) :
    (List.replicate n 'a').contains '\n' = false := by
  induction n with
  | zero => rfl
  | succ n ih => simp only [List.replicate_succ, List.contains_cons, ih]; decide

theorem replicate_a_dropNL (n : Nat) :
    (List.replicate n 'a').dropWhile (fun c => c == '\n') = List.replicate n 'a' := by
  cases n with
  | zero => rfl
  | succ n =>
    rw [List.replicate_succ]
    rw [List.dropWhile_cons_of_neg (by decide)]

theorem parse_replicate_large (n : Nat) (src : Str) (ctx : Option Spec)
    (hn : 2 ^ 23 < n) :
    Op.parse (List.replicate n 'a') src ctx =
      .error (("large unparseable input").toList) := by
  unfold Op.parse
  rw [parseLoop_no_quant (List.replicate n 'a') (replicate_a_no_quant n)]
  simp only [replicate_a_dropNL n, replicate_a_no_nl n, Bool.false_and,
    Bool.false_eq_true, if_false, List.length_replicate]
  rw [if_pos hn]

/-!
The claims.
-/

/-- C1, counterexample: splitting the valid one-line document
`/Model#obj1!1+u.set<TAB>value12<NL>` at a byte offset inside the line breaks
chunk-boundary invariance: the whole document parses to one op with value
`value12`, while the first half already parses to a complete op with the
truncated value `value1` and an empty remainder, and the carried-forward
second parse then fails on `2<NL>`. -/
theorem c1_chunk_split_counterexample :
    Op.parse (("/Model#obj1!1+u.set\tvalue1").toList ++ ("2\n").toList) [] none =
      .ok ⟨[Op.mk ⟨some (("Model").toList), some (("obj1").toList), some (("1+u").toList),
        some (("set").toList)⟩ (("value12").toList) [] none], []⟩ ∧
    Op.parse (("/Model#obj1!1+u.set\tvalue1").toList) [] none =
      .ok ⟨[Op.mk ⟨some (("Model").toList), some (("obj1").toList), some (("1+u").toList),
        some (("set").toList)⟩ (("value1").toList) [] none], []⟩ ∧
    Op.parse (([] : Str) ++ ("2\n").toList) [] none =
      .error (("unparseable input").toList) ∧
    ("value1").toList ≠ ("value12").toList := by
  refine ⟨rfl, rfl, rfl, by decide⟩

/-- C1 (amended): chunk-boundary invariance holds for splits at line
boundaries of documents made of complete newline-terminated top-level op
lines (no patch continuation lines): parsing the first half, carrying the
returned remainder forward, and parsing remainder plus second half yields the
same ordered op sequence as parsing the whole document in one call.  Splits
at other byte offsets (inside a line, or between a parent and its patch
lines) can change the result. -/
theorem c1_chunk_invariance_lines (ls1 ls2 : List GoodLine) (src : Str)
    (ctx : Option Spec) :
    ∃ r1 r2 r : ParseRes,
      Op.parse (docOf ls1) src ctx = .ok r1 ∧
      Op.parse (r1.remainder ++ docOf ls2) src ctx = .ok r2 ∧
      Op.parse (docOf ls1 ++ docOf ls2) src ctx = .ok r ∧
      r.ops = r1.ops ++ r2.ops ∧
      r.remainder = r2.remainder := by
  refine ⟨⟨ls1.map (opOfLine src ctx), []⟩, ⟨ls2.map (opOfLine src ctx), []⟩,
    ⟨(ls1 ++ ls2).map (opOfLine src ctx), []⟩, parse_doc ls1 src ctx, ?_, ?_, ?_, rfl⟩
  · simpa using parse_doc ls2 src ctx
  · rw [← docOf_append]
    exact parse_doc (ls1 ++ ls2) src ctx
  · simp

/-- C1, witness: the invariance theorem applied to two concrete one-line
documents. -/
theorem c1_chunk_invariance_lines_witness :
    ∃ r1 r2 r : ParseRes,
      Op.parse (docOf [⟨⟨some (("Model").toList), some (("a").toList),
          some (("1+u").toList), some (("set").toList)⟩, [('\t' : Char)],
          ("v1").toList, by decide, by decide, by decide, by decide, by decide⟩]) [] none = .ok r1 ∧
      Op.parse (r1.remainder ++ docOf [⟨⟨some (("Model").toList), some (("b").toList),
          some (("2+u").toList), some (("set").toList)⟩, [('\t' : Char)],
          ("v2").toList, by decide, by decide, by decide, by decide, by decide⟩]) [] none = .ok r2 ∧
      Op.parse (docOf [⟨⟨some (("Model").toList), some (("a").toList),
          some (("1+u").toList), some (("set").toList)⟩, [('\t' : Char)],
          ("v1").toList, by decide, by decide, by decide, by decide, by decide⟩] ++
        docOf [⟨⟨some (("Model").toList), some (("b").toList),
          some (("2+u").toList), some (("set").toList)⟩, [('\t' : Char)],
          ("v2").toList, by decide, by decide, by decide, by decide, by decide⟩]) [] none = .ok r ∧
      r.ops = r1.ops ++ r2.ops ∧
      r.remainder = r2.remainder := by
  exact c1_chunk_invariance_lines
    [⟨⟨some (("Model").toList), some (("a").toList), some (("1+u").toList),
      some (("set").toList)⟩, [('\t' : Char)], ("v1").toList,
      by decide, by decide, by decide, by decide, by decide⟩]
    [⟨⟨some (("Model").toList), some (("b").toList), some (("2+u").toList),
      some (("set").toList)⟩, [('\t' : Char)], ("v2").toList,
      by decide, by decide, by decide, by decide, by decide⟩] [] none

/-- C3, counterexample: for an op whose value contains a newline, parsing the
serialized text does not reproduce the op: the value is cut at the newline
and the tail is left in the remainder. -/
theorem c3_round_trip_counterexample :
    Op.parse (Op.toString (Op.mk ⟨some (("Model").toList), some (("obj1").toList),
        some (("1+u").toList), some (("set").toList)⟩ (("a\nb").toList) [] none)) [] none =
      .ok ⟨[Op.mk ⟨some (("Model").toList), some (("obj1").toList), some (("1+u").toList),
        some (("set").toList)⟩ (("a").toList) [] none], ("b").toList⟩ ∧
    ("a").toList ≠ ("a\nb").toList := by
  refine ⟨rfl, by decide⟩

/-- C3 (amended): for every op with a well-formed address, no patch, and a
nonempty value that contains no newline and does not start with horizontal
whitespace, parsing the serialized text yields exactly one op with the same
address components and the same value (and an empty remainder). -/
theorem c3_round_trip (sp : Spec) (v src src2 : Str)
    (hWF : specWF sp = true) (_hv0 : v ≠ [])
    (hvNL : ∀ c ∈ v, notNL c = true)
    (hvHead : v.takeWhile isHWS = []) :
    Op.parse (Op.toString (Op.mk sp v src none)) src2 none =
      .ok ⟨[Op.mk sp v src2 none], []⟩ := by
  have hts : Op.toString (Op.mk sp v src none) =
      lineRender ⟨sp, [('\t' : Char)], v, hWF, by decide, by decide, hvNL, hvHead⟩ := by
    show sp.render ++ ('\t' : Char) :: v = strcat sp.qtoks ++ [('\t' : Char)] ++ v
    simp [Spec.render]
  rw [hts, parse_single_line]
  show (Except.ok (ParseRes.mk [Op.mk (specOf sp.qtoks none none) v src2 none] []) :
    Except Str ParseRes) = _
  rw [show specOf sp.qtoks none none = sp from specBase_qtoks sp]

/-- C3, witness: the round-trip theorem applied to a concrete op. -/
theorem c3_round_trip_witness :
    Op.parse (Op.toString (Op.mk ⟨some (("Model").toList), some (("obj1").toList),
        some (("1+u").toList), some (("set").toList)⟩ (("value1").toList)
        (("src").toList) none)) [] none =
      .ok ⟨[Op.mk ⟨some (("Model").toList), some (("obj1").toList), some (("1+u").toList),
        some (("set").toList)⟩ (("value1").toList) [] none], []⟩ := by
  exact c3_round_trip ⟨some (("Model").toList), some (("obj1").toList),
    some (("1+u").toList), some (("set").toList)⟩ (("value1").toList)
    (("src").toList) [] (by decide) (by decide) (by decide) (by decide)

/-- C5, counterexample: on a closed connection a send does not fail with a
configuration error: the write is accepted (the op is queued) and nothing is
written to the transport. -/
theorem c5_send_after_close_counterexample :
    writeE (Op.mk ⟨some (("Model").toList), some (("x").toList), some (("1+u").toList),
        some (("set").toList)⟩ (("v").toList) [] none)
      ⟨false, false, none, none, none, ("0").toList, none, none, none, none,
        [], [], false, 0, [], [], [], [], 0⟩ =
    .ok ⟨false, false, none, none, none, ("0").toList, none, none, none, none,
        [], [Op.mk ⟨some (("Model").toList), some (("x").toList), some (("1+u").toList),
          some (("set").toList)⟩ (("v").toList) [] none], false, 0, [], [], [], [], 0⟩ := by
  rfl

/-- C5 (amended): once the connection is closed, a send, deliver or write is
accepted without any error: the op is appended to the pending queue, nothing
is written to the transport and nothing is delivered; only a subsequent call
of end fails, with the not-open error. -/
theorem c5_send_after_close (st : St) (op : Op) (h : st.streamOpen = false) :
    (∃ st2, writeE op st = .ok st2 ∧ st2.written = st.written ∧
      st2.pending = st.pending ++ [op] ∧ st2.delivered = st.delivered) ∧
    endStep none st = .error (("this op stream is not open").toList) := by
  constructor
  · refine ⟨writeStep op st, rfl, ?_, ?_, ?_⟩ <;>
    · unfold writeStep flushStep
      by_cases ha : st.asyncFlush
      · rw [if_pos ha]
        by_cases hf : st.flushTimeoutSet
        · rw [if_pos hf]
        · rw [if_neg hf]
      · rw [if_neg ha]
        rw [if_neg (by simp [h])]
  · unfold endStep
    rw [if_neg (by simp [h])]

/-- C5, witness: the amended theorem applied to a concrete closed state. -/
theorem c5_send_after_close_witness :
    (∃ st2, writeE (Op.mk ⟨some (("Model").toList), some (("y").toList),
        some (("2+u").toList), some (("set").toList)⟩ (("w").toList) [] none)
      ⟨false, true, none, none, none, ("0").toList, none, none, none, none,
        [], [], false, 0, [], [], [], [], 0⟩ = .ok st2 ∧
      st2.written = [] ∧ st2.pending = [] ++ [Op.mk ⟨some (("Model").toList),
        some (("y").toList), some (("2+u").toList), some (("set").toList)⟩
        (("w").toList) [] none] ∧ st2.delivered = []) ∧
    endStep none ⟨false, true, none, none, none, ("0").toList, none, none, none, none,
        [], [], false, 0, [], [], [], [], 0⟩ =
      .error (("this op stream is not open").toList) := by
  exact c5_send_after_close
    ⟨false, true, none, none, none, ("0").toList, none, none, none, none,
      [], [], false, 0, [], [], [], [], 0⟩
    (Op.mk ⟨some (("Model").toList), some (("y").toList), some (("2+u").toList),
      some (("set").toList)⟩ (("w").toList) [] none) rfl

/-- C6, counterexample: a malformed line standing before a successful match
is silently consumed without any error: the input starts with the garbage
line `x`, yet parsing succeeds with one op and an empty remainder. -/
theorem c6_silent_skip_counterexample :
    Op.parse (("x\n/Model#a!1+u.set\tv\n").toList) [] none =
      .ok ⟨[Op.mk ⟨some (("Model").toList), some (("a").toList), some (("1+u").toList),
        some (("set").toList)⟩ (("v").toList) [] none], []⟩ := by
  rfl

/-- C6 (amended): whenever the remainder left after the match loop, with its
leading newline run dropped, still contains a newline, Op.parse fails with
the unparseable-input error (no further match can ever be produced from that
remainder, since the loop consumed every match).  Malformed text standing
before a successful match, however, is consumed without an error. -/
theorem c6_unparseable_guard (s src : Str) (ctx : Option Spec)
    (h : ((parseLoop s).2.dropWhile (fun c => c == '\n')).contains '\n' = true) :
    Op.parse s src ctx = .error (("unparseable input").toList) := by
  have hnm : (findMatch ((parseLoop s).2.dropWhile (fun c => c == '\n'))).isNone = true := by
    rw [findMatch_none_dropWhile _ (parseLoop_rem_nomatch s.length s (le_refl _))]
    rfl
  unfold Op.parse
  dsimp only
  rw [h, hnm]
  rfl

/-- C6, witness: the guard theorem applied to an input with no match and an
inner newline. -/
theorem c6_unparseable_guard_witness :
    Op.parse (("abc\ndef\n").toList) [] none =
      .error (("unparseable input").toList) := by
  exact c6_unparseable_guard (("abc\ndef\n").toList) [] none (by decide)

/-- C7, counterexample: an oversized unparseable input fails with the message
`large unparseable input`, not the message `oversized unparseable input`
named by the claim. -/
theorem c7_error_message_counterexample :
    Op.parse (List.replicate (2 ^ 23 + 1) 'a') [] none =
      .error (("large unparseable input").toList) ∧
    ("large unparseable input").toList ≠ ("oversized unparseable input").toList := by
  refine ⟨parse_replicate_large (2 ^ 23 + 1) [] none (by omega), by decide⟩

/-- C7 (amended): the remainder returned by a successful Op.parse never
exceeds two to the twenty-third characters; and whenever the post-strip
remainder of the match loop is newline-free yet longer than that bound,
Op.parse fails with the error message `large unparseable input`. -/
theorem c7_size_guard :
    (∀ (s src : Str) (ctx : Option Spec) (r : ParseRes),
      Op.parse s src ctx = .ok r → r.remainder.length ≤ 2 ^ 23) ∧
    (∀ (s src : Str) (ctx : Option Spec),
      ((parseLoop s).2.dropWhile (fun c => c == '\n')).contains '\n' = false →
      2 ^ 23 < ((parseLoop s).2.dropWhile (fun c => c == '\n')).length →
      Op.parse s src ctx = .error (("large unparseable input").toList)) := by
  constructor
  · intro s src ctx r h
    unfold Op.parse at h
    by_cases h1 : ((parseLoop s).2.dropWhile (fun c => c == '\n')).contains '\n' &&
        (findMatch ((parseLoop s).2.dropWhile (fun c => c == '\n'))).isNone
    · rw [if_pos h1] at h
      cases h
    · rw [if_neg h1] at h
      by_cases h2 : 2 ^ 23 < ((parseLoop s).2.dropWhile (fun c => c == '\n')).length
      · rw [if_pos h2] at h
        cases h
      · rw [if_neg h2] at h
        have hr : r.remainder = (parseLoop s).2.dropWhile (fun c => c == '\n') := by
          cases h
          rfl
        rw [hr]
        omega
  · intro s src ctx h1 h2
    unfold Op.parse
    dsimp only
    rw [h1]
    simp only [Bool.false_and, Bool.false_eq_true, if_false]
    rw [if_pos h2]

/-- C7, witness: the bound applied to a concrete successful parse and the
guard applied to an oversized input of repeated letters. -/
theorem c7_size_guard_witness :
    (ParseRes.mk [] (("ab").toList)).remainder.length ≤ 2 ^ 23 ∧
    Op.parse (List.replicate (2 ^ 23 + 1) 'a') [] none =
      .error (("large unparseable input").toList) := by
  constructor
  · exact c7_size_guard.1 (("ab").toList) [] none ⟨[], ("ab").toList⟩ rfl
  · apply c7_size_guard.2
    · rw [parseLoop_no_quant _ (replicate_a_no_quant (2 ^ 23 + 1)),
        replicate_a_dropNL (2 ^ 23 + 1)]
      exact replicate_a_no_nl (2 ^ 23 + 1)
    · rw [parseLoop_no_quant _ (replicate_a_no_quant (2 ^ 23 + 1)),
        replicate_a_dropNL (2 ^ 23 + 1), List.length_replicate]
      omega

/-- C2, code bug at a failing input: on a fresh connection whose first
decoded op fails the handshake shape test, exactly one error signal fires
and the connection closes — but the remaining data op of the same batch is
still delivered to the consumer, contradicting the claim (and the comment of
the source, which promises that no ops can be received ahead of the incoming
handshake).  The first op is consumed as the handshake although its name is
`on` under a non-Swarm type, and no id signal fires. -/
theorem c2_handshake_gate_failing_input :
    (onStreamDataReceived (("/Bad#db!0+u.on\tx\n/Model#y!1+u.set\tw\n").toList)
      ⟨true, false, none, none, none, ("0").toList, none, none, none, none,
        [], [], false, 0, [], [], [], [], 0⟩).errorSignals =
      [("invalid handshake").toList] ∧
    (onStreamDataReceived (("/Bad#db!0+u.on\tx\n/Model#y!1+u.set\tw\n").toList)
      ⟨true, false, none, none, none, ("0").toList, none, none, none, none,
        [], [], false, 0, [], [], [], [], 0⟩).delivered =
      [Op.mk ⟨some (("Model").toList), some (("y").toList), some (("1+u").toList),
        some (("set").toList)⟩ (("w").toList) [] none] ∧
    (onStreamDataReceived (("/Bad#db!0+u.on\tx\n/Model#y!1+u.set\tw\n").toList)
      ⟨true, false, none, none, none, ("0").toList, none, none, none, none,
        [], [], false, 0, [], [], [], [], 0⟩).streamOpen = false ∧
    (onStreamDataReceived (("/Bad#db!0+u.on\tx\n/Model#y!1+u.set\tw\n").toList)
      ⟨true, false, none, none, none, ("0").toList, none, none, none, none,
        [], [], false, 0, [], [], [], [], 0⟩).idSignals = [] := by
  refine ⟨rfl, rfl, rfl, rfl⟩

/-- C4: with an author restriction configured and the handshake already done,
an inbound batch whose first author mismatch occurs at some op yields exactly
one error signal carrying the access violation message, delivers only the
ops before the mismatch (in particular never the mismatching op), and closes
the connection. -/
theorem c4_restrict_author (st : St) (data a : Str) (ops pre post : List Op)
    (bad : Op) (rem : Str)
    (hopen : st.streamOpen = true)
    (hps : ∃ p, st.peer_stamp = some p ∧ p ≠ [])
    (hra : effRestrict st = some a)
    (hdata : data ≠ [])
    (hparse : Op.parse (st.remainder ++ data) (sourceOf st) none = .ok ⟨ops, rem⟩)
    (hsplit : ops = pre ++ bad :: post)
    (hpre : ∀ o ∈ pre, o.spec.author = a)
    (hbad : ¬(bad.spec.author = a)) :
    (onStreamDataReceived data st).delivered = st.delivered ++ pre ∧
    (onStreamDataReceived data st).errorSignals = st.errorSignals ++
      [("access violation: ").toList ++ bad.spec.render] ∧
    (onStreamDataReceived data st).streamOpen = false ∧
    bad ∉ pre := by
  obtain ⟨p, hp, hp0⟩ := hps
  have hde : data.isEmpty = false := by
    cases data with
    | nil => exact absurd rfl hdata
    | cons c cs => rfl
  have hops0 : ops ≠ [] := by
    rw [hsplit]
    simp
  have hexp : expectHandshake { st with remainder := rem } = false := by
    unfold expectHandshake
    show (match st.peer_stamp with
      | none => true
      | some s => s.isEmpty) = false
    rw [hp]
    cases p with
    | nil => exact absurd rfl hp0
    | cons c cs => rfl
  have hdr : onStreamDataReceived data st = deliverOps ops { st with remainder := rem } := by
    unfold onStreamDataReceived
    rw [if_pos hopen]
    rw [hde]
    simp only [Bool.false_eq_true, if_false]
    rw [hparse]
    dsimp only
    cases hcons : ops with
    | nil => exact absurd hcons hops0
    | cons o1 rest =>
      rw [hexp]
      simp only [Bool.false_eq_true, if_false]
  rw [hdr, hsplit]
  rw [deliverOps_bad pre bad post { st with remainder := rem } a hra hopen hpre hbad]
  refine ⟨rfl, rfl, rfl, ?_⟩
  intro hmem
  exact hbad (hpre bad hmem)

/-- C4, witness: the authorization theorem applied to a concrete established
connection restricted to the author alice, receiving a single op authored by
bob. -/
theorem c4_restrict_author_witness :
    (onStreamDataReceived (("/Model#x!1+bob.set\tv\n").toList)
      ⟨true, false, some (("alice").toList), none, none, ("0").toList, none, none,
        some (("0+u").toList), none, [], [], false, 0, [], [], [], [], 0⟩).delivered = [] ∧
    (onStreamDataReceived (("/Model#x!1+bob.set\tv\n").toList)
      ⟨true, false, some (("alice").toList), none, none, ("0").toList, none, none,
        some (("0+u").toList), none, [], [], false, 0, [], [], [], [], 0⟩).errorSignals =
      [("access violation: /Model#x!1+bob.set").toList] ∧
    (onStreamDataReceived (("/Model#x!1+bob.set\tv\n").toList)
      ⟨true, false, some (("alice").toList), none, none, ("0").toList, none, none,
        some (("0+u").toList), none, [], [], false, 0, [], [], [], [], 0⟩).streamOpen =
      false := by
  have h := c4_restrict_author
    ⟨true, false, some (("alice").toList), none, none, ("0").toList, none, none,
      some (("0+u").toList), none, [], [], false, 0, [], [], [], [], 0⟩
    (("/Model#x!1+bob.set\tv\n").toList) (("alice").toList)
    [Op.mk ⟨some (("Model").toList), some (("x").toList), some (("1+bob").toList),
      some (("set").toList)⟩ (("v").toList) (("0+u").toList) none]
    [] []
    (Op.mk ⟨some (("Model").toList), some (("x").toList), some (("1+bob").toList),
      some (("set").toList)⟩ (("v").toList) (("0+u").toList) none)
    [] rfl ⟨("0+u").toList, rfl, by decide⟩ rfl (by decide) rfl rfl
    (by intro o ho; cases ho) (by decide)
  exact ⟨h.1, h.2.1, h.2.2.1⟩

/-- C8: with coalescing enabled and no timeout handle stored, a same-turn
burst of sends appends every op to the pending queue in order, arms exactly
one zero-delay deferred flush, and writes nothing yet; when the deferred
flush fires, the whole burst goes out as a single transport write.  With
coalescing disabled, each send is followed synchronously and immediately by
a flush of the whole queue. -/
theorem c8_send_coalescing (st : St) (ops : List Op) (op : Op)
    (hopen : st.streamOpen = true) :
    (st.asyncFlush = true → st.flushTimeoutSet = false → st.armedFlushes = 0 →
      st.pending = [] → ops ≠ [] →
      (ops.foldl (fun s o => writeStep o s) st).pending = ops ∧
      (ops.foldl (fun s o => writeStep o s) st).written = st.written ∧
      (ops.foldl (fun s o => writeStep o s) st).armedFlushes = 1 ∧
      (fireFlush (ops.foldl (fun s o => writeStep o s) st)).written =
        st.written ++ [strcat (ops.map Op.toString)] ∧
      (fireFlush (ops.foldl (fun s o => writeStep o s) st)).pending = []) ∧
    (st.asyncFlush = false →
      writeStep op st = flushStep { st with pending := st.pending ++ [op] } ∧
      (writeStep op st).written =
        st.written ++ [strcat ((st.pending ++ [op]).map Op.toString)] ∧
      (writeStep op st).pending = []) := by
  constructor
  · intro ha hf harm hpend hne
    cases ops with
    | nil => exact absurd rfl hne
    | cons o rest =>
      have hw1 : writeStep o st = { st with
          pending := st.pending ++ [o]
          flushTimeoutSet := true
          armedFlushes := st.armedFlushes + 1 } := by
        unfold writeStep
        rw [if_pos ha, if_neg (by simp [hf])]
      have hfold : (o :: rest).foldl (fun s o => writeStep o s) st = { st with
          pending := (st.pending ++ [o]) ++ rest
          flushTimeoutSet := true
          armedFlushes := st.armedFlushes + 1 } := by
        simp only [List.foldl_cons, hw1]
        rw [foldl_write_flagged rest { st with
          pending := st.pending ++ [o]
          flushTimeoutSet := true
          armedFlushes := st.armedFlushes + 1 } ha rfl]
      rw [hfold]
      refine ⟨by simp [hpend], rfl, by simp [harm], ?_, ?_⟩
      · unfold fireFlush flushStep
        rw [if_pos (by exact hopen)]
        simp [hpend]
      · unfold fireFlush flushStep
        rw [if_pos (by exact hopen)]
  · intro ha
    refine ⟨?_, ?_, ?_⟩
    · unfold writeStep
      rw [if_neg (by simp [ha])]
    · unfold writeStep flushStep
      rw [if_neg (by simp [ha]), if_pos (by exact hopen)]
    · unfold writeStep flushStep
      rw [if_neg (by simp [ha]), if_pos (by exact hopen)]

/-- C8, witness: the coalescing theorem applied to a concrete open connection
and a two-op burst. -/
theorem c8_send_coalescing_witness :
    let opA : Op := Op.mk ⟨some (("Model").toList), some (("a").toList),
      some (("1+u").toList), some (("set").toList)⟩ (("v1").toList) [] none
    let opB : Op := Op.mk ⟨some (("Model").toList), some (("b").toList),
      some (("2+u").toList), some (("set").toList)⟩ (("v2").toList) [] none
    let st0 : St := ⟨true, true, none, none, none, ("0").toList, none, none, none, none,
      [], [], false, 0, [], [], [], [], 0⟩
    ([opA, opB].foldl (fun s o => writeStep o s) st0).armedFlushes = 1 ∧
    (fireFlush ([opA, opB].foldl (fun s o => writeStep o s) st0)).written =
      st0.written ++ [strcat ([opA, opB].map Op.toString)] := by
  intro opA opB st0
  have h := (c8_send_coalescing st0 [opA, opB] opA rfl).1 rfl rfl rfl rfl (by simp)
  exact ⟨h.2.2.1, h.2.2.2.1⟩

/-- C9, counterexample: sendHandshake accepts an op whose type is `XSwarm`,
which does not begin with `Swarm` — the unanchored regex test only requires
the text Swarm to occur somewhere in the type — so the claim that it fails
unless the type begins with the protocol family name is false. -/
theorem c9_swarm_substring_counterexample :
    sendHandshakeE (Op.mk ⟨some (("XSwarm").toList), some (("db").toList),
        some (("0+u").toList), some (("on").toList)⟩ [] [] none)
      ⟨true, true, none, none, none, ("0").toList, none, none, none, none,
        [], [], true, 0, [], [], [], [], 0⟩ =
    .ok ⟨true, true, none, some (("u").toList), some (("db").toList), ("0+u").toList,
        none, none, none, none, [],
        [Op.mk ⟨some (("XSwarm").toList), some (("db").toList),
          some (("0+u").toList), some (("on").toList)⟩ [] [] none],
        true, 0, [], [], [], [], 0⟩ ∧
    leadsWith (("Swarm").toList) (("XSwarm").toList) = false := by
  refine ⟨rfl, by decide⟩

/-- C9 (amended): sendHandshake fails with the not-a-handshake error when the
address pattern is not exactly the four components, or the type does not
contain the text Swarm, or the operation name does not lowercase to on; when
all three conditions hold (with coalescing enabled, so the queue is
observable) it succeeds, records the local database id, session id and stamp
from the op, and appends the op to the outbound queue. -/
theorem c9_send_handshake (st : St) (op : Op) :
    ((op.spec.pattern ≠ ("/#!.").toList ∨
      containsSeq (("Swarm").toList) op.spec.typeStr = false ∨
      op.spec.opStr.map Char.toLower ≠ ("on").toList) →
      sendHandshakeE op st = .error (("not a handshake").toList)) ∧
    (op.spec.pattern = ("/#!.").toList →
      containsSeq (("Swarm").toList) op.spec.typeStr = true →
      op.spec.opStr.map Char.toLower = ("on").toList →
      st.asyncFlush = true →
      ∃ st2, sendHandshakeE op st = .ok st2 ∧
        st2.db_id = some op.spec.idStr ∧
        st2.ssn_id = some (originOf op.spec.stampStr) ∧
        st2.stamp = op.spec.stampStr ∧
        st2.pending = st.pending ++ [op]) := by
  constructor
  · intro hbad
    have hsh : handshakeShapeOk op.spec = false := by
      unfold handshakeShapeOk
      rcases hbad with hb | hb | hb
      · rw [show (op.spec.pattern == ("/#!.").toList) = false from beq_eq_false_iff_ne.mpr hb]
        simp
      · rw [hb]
        simp
      · rw [show (op.spec.opStr.map Char.toLower == ("on").toList) = false from
          beq_eq_false_iff_ne.mpr hb]
        simp
    unfold sendHandshakeE
    rw [hsh]
    rfl
  · intro h1 h2 h3 ha
    have hsh : handshakeShapeOk op.spec = true := by
      unfold handshakeShapeOk
      rw [show (op.spec.pattern == ("/#!.").toList) = true from beq_iff_eq.mpr h1, h2,
        show (op.spec.opStr.map Char.toLower == ("on").toList) = true from beq_iff_eq.mpr h3]
      rfl
    unfold sendHandshakeE
    rw [hsh]
    simp only [if_true]
    refine ⟨_, rfl, ?_, ?_, ?_, ?_⟩
    · unfold writeStep
      by_cases hf : st.flushTimeoutSet <;> simp [ha, hf]
    · unfold writeStep
      by_cases hf : st.flushTimeoutSet <;> simp [ha, hf]
    · unfold writeStep
      by_cases hf : st.flushTimeoutSet <;> simp [ha, hf]
    · unfold writeStep
      by_cases hf : st.flushTimeoutSet <;> simp [ha, hf]

/-- C9, witness: the amended theorem rejecting a concrete op whose type lacks
the text Swarm and accepting a concrete valid handshake. -/
theorem c9_send_handshake_witness :
    sendHandshakeE (Op.mk ⟨some (("Model").toList), some (("db").toList),
        some (("0+u").toList), some (("on").toList)⟩ [] [] none)
      ⟨true, true, none, none, none, ("0").toList, none, none, none, none,
        [], [], false, 0, [], [], [], [], 0⟩ =
      .error (("not a handshake").toList) ∧
    (∃ st2, sendHandshakeE (Op.mk ⟨some (("Swarm+Service").toList), some (("db").toList),
        some (("t1+u~s").toList), some (("on").toList)⟩ [] [] none)
      ⟨true, true, none, none, none, ("0").toList, none, none, none, none,
        [], [], false, 0, [], [], [], [], 0⟩ = .ok st2 ∧
      st2.db_id = some (("db").toList) ∧
      st2.ssn_id = some (("u~s").toList) ∧
      st2.stamp = ("t1+u~s").toList ∧
      st2.pending = [] ++ [Op.mk ⟨some (("Swarm+Service").toList), some (("db").toList),
        some (("t1+u~s").toList), some (("on").toList)⟩ [] [] none]) := by
  constructor
  · exact (c9_send_handshake
      ⟨true, true, none, none, none, ("0").toList, none, none, none, none,
        [], [], false, 0, [], [], [], [], 0⟩
      (Op.mk ⟨some (("Model").toList), some (("db").toList),
        some (("0+u").toList), some (("on").toList)⟩ [] [] none)).1
      (Or.inr (Or.inl (by decide)))
  · exact (c9_send_handshake
      ⟨true, true, none, none, none, ("0").toList, none, none, none, none,
        [], [], false, 0, [], [], [], [], 0⟩
      (Op.mk ⟨some (("Swarm+Service").toList), some (("db").toList),
        some (("t1+u~s").toList), some (("on").toList)⟩ [] [] none)).2
      (by decide) (by decide) (by decide) rfl

/-- C10: flush performs one transport write whose text is the serializations
of the queued ops joined with the empty separator — no newline or any other
separator between consecutive ops — and empties the queue; and on a concrete
pair of ops, the peer parser cannot recover the boundary: the concatenation
of two serialized ops parses back as a single op whose value swallows the
entire second op line. -/
theorem c10_flush_concat (st : St) (hopen : st.streamOpen = true)
    (_hlen : 2 ≤ st.pending.length) :
    ((flushStep st).written = st.written ++ [strcat (st.pending.map Op.toString)] ∧
     (flushStep st).pending = []) ∧
    (strcat (([Op.mk ⟨some (("Model").toList), some (("a").toList), some (("1+u").toList),
        some (("set").toList)⟩ (("v1").toList) [] none,
      Op.mk ⟨some (("Model").toList), some (("b").toList), some (("2+u").toList),
        some (("set").toList)⟩ (("v2").toList) [] none] : List Op).map Op.toString) =
      Op.toString (Op.mk ⟨some (("Model").toList), some (("a").toList), some (("1+u").toList),
        some (("set").toList)⟩ (("v1").toList) [] none) ++
      Op.toString (Op.mk ⟨some (("Model").toList), some (("b").toList), some (("2+u").toList),
        some (("set").toList)⟩ (("v2").toList) [] none) ∧
     Op.parse (Op.toString (Op.mk ⟨some (("Model").toList), some (("a").toList),
        some (("1+u").toList), some (("set").toList)⟩ (("v1").toList) [] none) ++
      Op.toString (Op.mk ⟨some (("Model").toList), some (("b").toList), some (("2+u").toList),
        some (("set").toList)⟩ (("v2").toList) [] none)) [] none =
      .ok ⟨[Op.mk ⟨some (("Model").toList), some (("a").toList), some (("1+u").toList),
        some (("set").toList)⟩ (("v1/Model#b!2+u.set\tv2").toList) [] none], []⟩) := by
  refine ⟨⟨?_, ?_⟩, by rfl, by rfl⟩
  · unfold flushStep
    rw [if_pos hopen]
  · unfold flushStep
    rw [if_pos hopen]

/-- C10, witness: the flush theorem applied to a concrete open connection
with two queued ops. -/
theorem c10_flush_concat_witness :
    ((flushStep ⟨true, false, none, none, none, ("0").toList, none, none, none, none,
        [], [Op.mk ⟨some (("Model").toList), some (("a").toList), some (("1+u").toList),
          some (("set").toList)⟩ (("v1").toList) [] none,
        Op.mk ⟨some (("Model").toList), some (("b").toList), some (("2+u").toList),
          some (("set").toList)⟩ (("v2").toList) [] none],
        false, 0, [], [], [], [], 0⟩).written =
      [] ++ [strcat (([Op.mk ⟨some (("Model").toList), some (("a").toList),
          some (("1+u").toList), some (("set").toList)⟩ (("v1").toList) [] none,
        Op.mk ⟨some (("Model").toList), some (("b").toList), some (("2+u").toList),
          some (("set").toList)⟩ (("v2").toList) [] none] : List Op).map Op.toString)]) := by
  exact ((c10_flush_concat
    ⟨true, false, none, none, none, ("0").toList, none, none, none, none,
      [], [Op.mk ⟨some (("Model").toList), some (("a").toList), some (("1+u").toList),
        some (("set").toList)⟩ (("v1").toList) [] none,
      Op.mk ⟨some (("Model").toList), some (("b").toList), some (("2+u").toList),
        some (("set").toList)⟩ (("v2").toList) [] none],
      false, 0, [], [], [], [], 0⟩ rfl (by decide)).1).1
